import Mathlib

/-!
Verification of the crime-dashboard data pipeline (src/crime_dashboard.py).

The dashboard loads a CSV of incident records, derives calendar fields from
the occurrence timestamp, applies a three-stage filter (date range, category
set, arrest status), aggregates by category and by hour, samples for the map,
and paginates the filtered table.  The definitions below embed that logic:
a record carries the date component and hour of its occurrence timestamp, its
primary description (category), its arrest flag (a raw string, the source
compares it against the literals Y and N), and optional coordinates.
-/

namespace Crime

/-- An incident record after loading: `date` is the date component of the
occurrence timestamp (as an ordinal day; only its ordering matters), `hour`
the hour component, `category` the PRIMARY DESCRIPTION column, `arrest` the
raw ARREST column value, `lat`/`lon` the optional coordinates. -/
structure Record where
  date : Nat
  hour : Nat
  category : String
  arrest : String
  lat : Option Int
  lon : Option Int
deriving DecidableEq, Repr

/-- The sidebar filter state: `dateRange` is the tuple returned by the date
widget (the source checks `len(date_range) == 2` before using it),
`categories` the multiselect value (empty list means no restriction), and
`arrestStatus` the selectbox value, one of All, Arrest Made, No Arrest. -/
structure FilterSpec where
  dateRange : List Nat
  categories : List String
  arrestStatus : String
deriving DecidableEq, Repr

/-- Date-range stage of the filter (source lines 84-91): when the widget
supplies exactly two dates, keep records whose timestamp date component lies
in the closed interval; otherwise leave the data untouched. -/
def dateFilter (dr : List Nat) (df : List Record) : List Record :=
  match dr with
  | [s, e] => df.filter (fun r => decide (s ≤ r.date) && decide (r.date ≤ e))
  | _ => df

/-- Category stage of the filter (source lines 101-102): `if selected_crimes:`
means an empty selection imposes no restriction. -/
def categoryFilter (cats : List String) (df : List Record) : List Record :=
  if cats.isEmpty then df
  else df.filter (fun r => cats.contains r.category)

/-- Arrest stage of the filter (source lines 110-113): Arrest Made keeps
records with ARREST equal to Y, No Arrest keeps those equal to N, anything
else (the All option) imposes no restriction. -/
def arrestFilter (status : String) (df : List Record) : List Record :=
  if status = "Arrest Made" then df.filter (fun r => r.arrest == "Y")
  else if status = "No Arrest" then df.filter (fun r => r.arrest == "N")
  else df

/-- The full filter as the source composes it: date range, then category,
then arrest status. -/
def applyFilter (s : FilterSpec) (df : List Record) : List Record :=
  arrestFilter s.arrestStatus (categoryFilter s.categories (dateFilter s.dateRange df))

/-- The record-level predicate of the date stage. -/
def datePred (dr : List Nat) (r : Record) : Bool :=
  match dr with
  | [s, e] => decide (s ≤ r.date) && decide (r.date ≤ e)
  | _ => true

/-- The record-level predicate of the category stage. -/
def catPred (cats : List String) (r : Record) : Bool :=
  cats.isEmpty || cats.contains r.category

/-- The record-level predicate of the arrest stage. -/
def arrestPred (status : String) (r : Record) : Bool :=
  if status = "Arrest Made" then r.arrest == "Y"
  else if status = "No Arrest" then r.arrest == "N"
  else true

theorem dateFilter_eq_filter (dr : List Nat) (df : List Record) :
    dateFilter dr df = df.filter (datePred dr) := by
  match dr with
  | [s, e] => rfl
  | [] => exact (List.filter_eq_self.mpr fun r _ => rfl).symm
  | [a] => exact (List.filter_eq_self.mpr fun r _ => rfl).symm
  | a :: b :: c :: t => exact (List.filter_eq_self.mpr fun r _ => rfl).symm

theorem categoryFilter_eq_filter (cats : List String) (df : List Record) :
    categoryFilter cats df = df.filter (catPred cats) := by
  unfold categoryFilter catPred
  by_cases h : cats.isEmpty <;> simp [h]

theorem arrestFilter_eq_filter (status : String) (df : List Record) :
    arrestFilter status df = df.filter (arrestPred status) := by
  unfold arrestFilter arrestPred
  split <;> [skip; split] <;> simp

/-- The entire three-stage filter is a single `List.filter` by the
conjunction of the three record-level predicates. -/
theorem applyFilter_eq_filter (s : FilterSpec) (df : List Record) :
    applyFilter s df =
      df.filter (fun r =>
        arrestPred s.arrestStatus r && catPred s.categories r && datePred s.dateRange r) := by
  unfold applyFilter
  rw [dateFilter_eq_filter, categoryFilter_eq_filter, arrestFilter_eq_filter,
    List.filter_filter, List.filter_filter]

/-- The requested arrest status holds of a record: Arrest Made forces the
flag Y, No Arrest forces N, and every other status (All) restricts nothing. -/
def arrestOk (status : String) (r : Record) : Prop :=
  (status = "Arrest Made" → r.arrest = "Y") ∧ (status = "No Arrest" → r.arrest = "N")

/-- C1: for a valid FilterSpec (a two-date range), the filtered view is a
subsequence of the dataset in original order, and every record in it has its
timestamp date within the closed range, its category in the selected set
unless that set is empty, and its arrest flag matching the requested
status (with All restricting nothing). -/
theorem filtered_view_correct (s : FilterSpec) (df : List Record) (a b : Nat)
    (hdr : s.dateRange = [a, b]) :
    (applyFilter s df).Sublist df ∧
      ∀ r ∈ applyFilter s df,
        (a ≤ r.date ∧ r.date ≤ b) ∧
        (s.categories = [] ∨ r.category ∈ s.categories) ∧
        arrestOk s.arrestStatus r := by
  constructor
  · rw [applyFilter_eq_filter]
    exact List.filter_sublist df
  · intro r hr
    rw [applyFilter_eq_filter] at hr
    obtain ⟨-, hp⟩ := List.mem_filter.mp hr
    simp only [Bool.and_eq_true] at hp
    obtain ⟨⟨ha, hc⟩, hd⟩ := hp
    refine ⟨?_, ?_, ?_⟩
    · rw [hdr] at hd
      simp only [datePred, Bool.and_eq_true, decide_eq_true_eq] at hd
      exact hd
    · rw [catPred] at hc
      simp only [Bool.or_eq_true, List.isEmpty_iff] at hc
      rcases hc with hc | hc
      · exact Or.inl hc
      · exact Or.inr (List.elem_iff.mp hc)
    · rw [arrestPred] at ha
      constructor
      · intro h
        rw [if_pos h] at ha
        exact eq_of_beq ha
      · intro h
        have hne : s.arrestStatus ≠ "Arrest Made" := by
          rw [h]; decide
        rw [if_neg hne, if_pos h] at ha
        exact eq_of_beq ha

/-- A concrete spec and dataset used to instantiate the filter theorems. -/
def spec0 : FilterSpec :=
  { dateRange := [3, 7], categories := ["THEFT"], arrestStatus := "Arrest Made" }

/-- A concrete record inside the range of `spec0`. -/
def rec0 : Record :=
  { date := 5, hour := 14, category := "THEFT", arrest := "Y",
    lat := some 41, lon := some (-87) }

/-- A concrete record outside the category set of `spec0`. -/
def rec1 : Record :=
  { date := 6, hour := 2, category := "BATTERY", arrest := "N",
    lat := none, lon := none }

theorem filtered_view_correct_witness :
    (applyFilter spec0 [rec0, rec1]).Sublist [rec0, rec1] ∧
      ∀ r ∈ applyFilter spec0 [rec0, rec1],
        (3 ≤ r.date ∧ r.date ≤ 7) ∧
        (spec0.categories = [] ∨ r.category ∈ spec0.categories) ∧
        arrestOk spec0.arrestStatus r :=
  filtered_view_correct spec0 [rec0, rec1] 3 7 rfl

/-- C8: filtering is idempotent — applying the same FilterSpec a second time
changes nothing. -/
theorem applyFilter_idempotent (s : FilterSpec) (df : List Record) :
    applyFilter s (applyFilter s df) = applyFilter s df := by
  rw [applyFilter_eq_filter, applyFilter_eq_filter, List.filter_filter]
  congr 1
  funext r
  cases arrestPred s.arrestStatus r <;>
    cases catPred s.categories r <;>
      cases datePred s.dateRange r <;> rfl

/-- C9: when the date widget supplies fewer than two dates, the date stage
restricts nothing — the date-filtered view is the whole dataset, and the
full filter reduces to the category and arrest stages alone. -/
theorem incomplete_range_no_restriction (s : FilterSpec) (df : List Record)
    (h : s.dateRange.length < 2) :
    dateFilter s.dateRange df = df ∧
      applyFilter s df = arrestFilter s.arrestStatus (categoryFilter s.categories df) := by
  have hd : dateFilter s.dateRange df = df := by
    match hdr : s.dateRange with
    | [] => rfl
    | [a] => rfl
    | a :: b :: t =>
      rw [hdr, List.length_cons, List.length_cons] at h
      exact absurd h (by omega)
  exact ⟨hd, by rw [applyFilter, hd]⟩

theorem incomplete_range_no_restriction_witness :
    dateFilter (FilterSpec.mk [] ["THEFT"] "All").dateRange [rec0, rec1] = [rec0, rec1] ∧
      applyFilter (FilterSpec.mk [] ["THEFT"] "All") [rec0, rec1] =
        arrestFilter "All" (categoryFilter ["THEFT"] [rec0, rec1]) :=
  incomplete_range_no_restriction (FilterSpec.mk [] ["THEFT"] "All") [rec0, rec1]
    (by decide)

/-- The numerator of the arrest-rate metric (source line 129): the number of
records whose ARREST value is exactly Y. -/
def arrestYes (df : List Record) : Nat :=
  (df.filter (fun r => r.arrest == "Y")).length

/-- A record whose arrest flag is neither Y nor N. -/
def recOdd : Record :=
  { date := 5, hour := 3, category := "THEFT", arrest := "UNKNOWN",
    lat := none, lon := none }

/-- C10: a record whose arrest flag is neither Y nor N is excluded by both
the Arrest Made and the No Arrest filters, remains visible under All, and
contributes nothing to the arrest-rate numerator (only the value Y counts). -/
theorem nonstandard_arrest_flag (df : List Record) (r : Record)
    (hmem : r ∈ df) (hy : r.arrest ≠ "Y") (hn : r.arrest ≠ "N") :
    r ∉ arrestFilter "Arrest Made" df ∧
      r ∉ arrestFilter "No Arrest" df ∧
      r ∈ arrestFilter "All" df ∧
      ∀ df2, arrestYes (r :: df2) = arrestYes df2 := by
  refine ⟨?_, ?_, ?_, ?_⟩
  · rw [arrestFilter_eq_filter]
    intro hr
    have := (List.mem_filter.mp hr).2
    rw [arrestPred, if_pos rfl] at this
    exact hy (eq_of_beq this)
  · rw [arrestFilter_eq_filter]
    intro hr
    have := (List.mem_filter.mp hr).2
    rw [arrestPred, if_neg (by decide), if_pos rfl] at this
    exact hn (eq_of_beq this)
  · rw [arrestFilter_eq_filter]
    refine List.mem_filter.mpr ⟨hmem, ?_⟩
    rw [arrestPred, if_neg (by decide), if_neg (by decide)]
  · intro df2
    unfold arrestYes
    rw [List.filter_cons]
    simp [hy]

theorem nonstandard_arrest_flag_witness :
    recOdd ∉ arrestFilter "Arrest Made" [recOdd, rec0] ∧
      recOdd ∉ arrestFilter "No Arrest" [recOdd, rec0] ∧
      recOdd ∈ arrestFilter "All" [recOdd, rec0] ∧
      ∀ df2, arrestYes (recOdd :: df2) = arrestYes df2 :=
  nonstandard_arrest_flag [recOdd, rec0] recOdd (by decide) (by decide) (by decide)

/-- Total page count as the source computes it (line 212):
`len // page_size + (1 if len % page_size > 0 else 0)`. -/
def totalPages (n ps : Nat) : Nat :=
  n / ps + (if 0 < n % ps then 1 else 0)

/-- The slice shown for a 1-indexed page (lines 216-218):
`df_filtered.iloc[(page-1)*page_size : (page-1)*page_size + page_size]`. -/
def pageSlice (view : List Record) (ps page : Nat) : List Record :=
  (view.drop ((page - 1) * ps)).take ps

theorem totalPages_eq_ceil (n ps : Nat) (h : 0 < ps) :
    totalPages n ps = (n + ps - 1) / ps := by
  have h5 : ps * (n / ps) + n % ps = n := Nat.div_add_mod n ps
  have hr : n % ps < ps := Nat.mod_lt n h
  rcases Nat.eq_zero_or_pos (n % ps) with h0 | hpos
  · have e1 : n + ps - 1 = ps - 1 + ps * (n / ps) := by omega
    have e2 : (ps - 1) / ps = 0 := Nat.div_eq_of_lt (by omega)
    rw [totalPages, if_neg (by omega), e1, Nat.add_mul_div_left _ _ h, e2]
    omega
  · have e1 : n + ps - 1 = n % ps - 1 + ps * (n / ps + 1) := by
      have : ps * (n / ps + 1) = ps * (n / ps) + ps := by ring
      omega
    have e2 : (n % ps - 1) / ps = 0 := Nat.div_eq_of_lt (by omega)
    rw [totalPages, if_pos hpos, e1, Nat.add_mul_div_left _ _ h, e2]
    omega

theorem lastPage_start_lt (n ps : Nat) (h : 0 < ps) (hn : 0 < n) :
    (totalPages n ps - 1) * ps < n := by
  have h5 : ps * (n / ps) + n % ps = n := Nat.div_add_mod n ps
  have hr : n % ps < ps := Nat.mod_lt n h
  rcases Nat.eq_zero_or_pos (n % ps) with h0 | hpos
  · have hq : 0 < n / ps := by
      rcases Nat.eq_zero_or_pos (n / ps) with hq0 | hq1
      · rw [hq0] at h5; omega
      · exact hq1
    have e1 : (totalPages n ps - 1) * ps = (n / ps - 1) * ps := by
      rw [totalPages]; simp [h0]
    have e2 : (n / ps - 1) * ps + ps = (n / ps) * ps := by
      have : n / ps - 1 + 1 = n / ps := Nat.succ_pred_eq_of_pos hq
      calc (n / ps - 1) * ps + ps = (n / ps - 1 + 1) * ps := by ring
        _ = (n / ps) * ps := by rw [this]
    have e3 : (n / ps) * ps = n := by rw [mul_comm]; omega
    omega
  · have e1 : (totalPages n ps - 1) * ps = (n / ps) * ps := by
      rw [totalPages]; simp [hpos]
    have e3 : (n / ps) * ps = n - n % ps := by rw [mul_comm]; omega
    omega

/-- C2 counterexample: for an empty view the source computes a total page
count of 0, not the 1 the claim requires. -/
theorem totalPages_empty_view_counterexample :
    totalPages (List.length ([] : List Record)) 100 = 0 ∧
      totalPages (List.length ([] : List Record)) 100 ≠ 1 := by
  exact ⟨rfl, by decide⟩

/-- C2 amended: for every view and page size > 0 the paginator computes
total_pages = ceil(|view| / page_size); for an empty view total_pages is 0
(not 1); pages are 1-indexed, and for a nonempty view the slice at page
total_pages is well defined and nonempty. -/
theorem paginator_amended (view : List Record) (ps : Nat) (h : 0 < ps) :
    totalPages view.length ps = (view.length + ps - 1) / ps ∧
      (view = [] → totalPages view.length ps = 0) ∧
      (view ≠ [] → pageSlice view ps (totalPages view.length ps) ≠ []) := by
  refine ⟨totalPages_eq_ceil view.length ps h, ?_, ?_⟩
  · intro he
    rw [he]
    simp [totalPages]
  · intro hne
    have hn : 0 < view.length := List.length_pos.mpr hne
    have hlt : (totalPages view.length ps - 1) * ps < view.length :=
      lastPage_start_lt view.length ps h hn
    rw [pageSlice]
    intro hcon
    rcases List.take_eq_nil_iff.mp hcon with h0 | hdrop
    · omega
    · have := List.length_drop ((totalPages view.length ps - 1) * ps) view
      rw [hdrop] at this
      simp at this
      omega

theorem paginator_amended_witness :
    totalPages (List.length [rec0, rec1]) 1 = (List.length [rec0, rec1] + 1 - 1) / 1 ∧
      ([rec0, rec1] = [] → totalPages (List.length [rec0, rec1]) 1 = 0) ∧
      ([rec0, rec1] ≠ [] → pageSlice [rec0, rec1] 1 (totalPages (List.length [rec0, rec1]) 1) ≠ []) :=
  paginator_amended [rec0, rec1] 1 (by decide)

/-- A raw CSV row before cleaning: `rawTs` is the occurrence timestamp as an
optional (date, hour) pair — `none` when `pd.to_datetime(..., errors="coerce")`
fails to parse it — together with the other columns the pipeline uses. -/
structure RawRow where
  rawTs : Option (Nat × Nat)
  category : String
  arrest : String
  lat : Option Int
  lon : Option Int
deriving DecidableEq, Repr

/-- Row-level cleaning: a row survives `dropna` on the timestamp column
exactly when its timestamp parsed; the derived fields come from the
timestamp. -/
def parseRow (row : RawRow) : Option Record :=
  row.rawTs.map (fun ts =>
    { date := ts.1, hour := ts.2, category := row.category,
      arrest := row.arrest, lat := row.lat, lon := row.lon })

/-- The loader (source lines 34-59): `none` input models a source that cannot
be opened (`pd.read_csv` raises, the handler returns `None`); otherwise every
row whose timestamp parsed is kept, and the result is returned even when no
row survives. -/
def load_data (input : Option (List RawRow)) : Option (List Record) :=
  match input with
  | none => none
  | some rows => some (rows.filterMap parseRow)

/-- C3 counterexample: an input that opens but yields zero parseable rows
does not fail — the loader returns an empty dataset, not the error value. -/
theorem load_data_zero_rows_counterexample :
    load_data (some [RawRow.mk none "THEFT" "Y" none none]) = some [] ∧
      load_data (some [RawRow.mk none "THEFT" "Y" none none]) ≠ none := by
  exact ⟨rfl, by decide⟩

/-- C3 amended: the loader fails (returns the error value) exactly when the
input cannot be opened; an input that opens never fails — zero parseable
rows yields an empty dataset rather than an error — and an input with at
least one parseable row yields a nonempty dataset. -/
theorem load_data_amended (rows : List RawRow) (row : RawRow)
    (hmem : row ∈ rows) (hparse : parseRow row ≠ none) :
    load_data none = none ∧
      (∀ l, load_data (some l) ≠ none) ∧
      ∃ ds, load_data (some rows) = some ds ∧ ds ≠ [] := by
  refine ⟨rfl, fun l => by simp [load_data], ?_⟩
  refine ⟨rows.filterMap parseRow, rfl, ?_⟩
  obtain ⟨r, hr⟩ := Option.ne_none_iff_exists'.mp hparse
  exact List.ne_nil_of_mem (List.mem_filterMap.mpr ⟨row, hmem, hr⟩)

/-- A raw row whose timestamp parses. -/
def goodRow : RawRow :=
  { rawTs := some (5, 14), category := "THEFT", arrest := "Y",
    lat := some 41, lon := some (-87) }

theorem load_data_amended_witness :
    load_data none = none ∧
      (∀ l, load_data (some l) ≠ none) ∧
      ∃ ds, load_data (some [goodRow]) = some ds ∧ ds ≠ [] :=
  load_data_amended [goodRow] goodRow (by decide) (by decide)

/-- The distinct values of a list in order of first appearance, skipping
values already seen.  This is the key order a pandas hash-table based
grouping produces before any sort is applied. -/
def firstKeysAux {α : Type} [DecidableEq α] (seen : List α) : List α → List α
  | [] => []
  | a :: t => if a ∈ seen then firstKeysAux seen t else a :: firstKeysAux (a :: seen) t

/-- The distinct values of a list in first-encounter order. -/
def firstKeys {α : Type} [DecidableEq α] (l : List α) : List α :=
  firstKeysAux [] l

theorem mem_firstKeysAux {α : Type} [DecidableEq α] {x : α} (l : List α) :
    ∀ seen, x ∈ firstKeysAux seen l ↔ x ∈ l ∧ x ∉ seen := by
  induction l with
  | nil => intro seen; simp [firstKeysAux]
  | cons a t ih =>
    intro seen
    simp only [firstKeysAux]
    by_cases ha : a ∈ seen
    · rw [if_pos ha, ih seen]
      simp only [List.mem_cons]
      by_cases hxa : x = a
      · subst hxa; simp [ha]
      · simp [hxa]
    · rw [if_neg ha]
      simp only [List.mem_cons, ih (a :: seen)]
      by_cases hxa : x = a
      · subst hxa; simp [ha]
      · simp [hxa]

theorem nodup_firstKeysAux {α : Type} [DecidableEq α] (l : List α) :
    ∀ seen, (firstKeysAux seen l).Nodup := by
  induction l with
  | nil => intro seen; simp [firstKeysAux]
  | cons a t ih =>
    intro seen
    simp only [firstKeysAux]
    split
    · exact ih seen
    · refine List.nodup_cons.mpr ⟨?_, ih (a :: seen)⟩
      intro hc
      exact ((mem_firstKeysAux t (a :: seen)).mp hc).2 (List.mem_cons_self a seen)

theorem mem_firstKeys {α : Type} [DecidableEq α] {x : α} (l : List α) :
    x ∈ firstKeys l ↔ x ∈ l := by
  rw [firstKeys, mem_firstKeysAux]
  simp

theorem nodup_firstKeys {α : Type} [DecidableEq α] (l : List α) :
    (firstKeys l).Nodup :=
  nodup_firstKeysAux l []

/-- The grouping behind pandas value_counts: each distinct value, in
first-encounter order, paired with its number of occurrences. -/
def valueCounts {α : Type} [DecidableEq α] (l : List α) : List (α × Nat) :=
  (firstKeys l).map (fun a => (a, l.count a))

theorem mem_valueCounts {α : Type} [DecidableEq α] {x : α} {n : Nat} (l : List α) :
    (x, n) ∈ valueCounts l ↔ x ∈ l ∧ n = l.count x := by
  simp only [valueCounts, List.mem_map]
  constructor
  · rintro ⟨a, ha, heq⟩
    injection heq with h1 h2
    subst h1
    subst h2
    exact ⟨(mem_firstKeys l).mp ha, rfl⟩
  · rintro ⟨hx, rfl⟩
    exact ⟨x, (mem_firstKeys l).mpr hx, rfl⟩

theorem keys_valueCounts {α : Type} [DecidableEq α] (l : List α) :
    (valueCounts l).map Prod.fst = firstKeys l := by
  rw [valueCounts, List.map_map]
  exact List.map_id _

theorem count_map_eq_length_filter {α : Type} [DecidableEq α]
    (view : List Record) (f : Record → α) (x : α) :
    (view.map f).count x = (view.filter (fun r => decide (f r = x))).length := by
  induction view with
  | nil => rfl
  | cons r t ih =>
    by_cases h : f r = x <;>
      simp [List.count_cons, List.filter_cons, h, ih]

/-- Insertion into a list sorted ascending by key (the sort_index order). -/
def insertByFst (p : Nat × Nat) : List (Nat × Nat) → List (Nat × Nat)
  | [] => [p]
  | q :: t => if p.1 ≤ q.1 then p :: q :: t else q :: insertByFst p t

/-- Sort ascending by key, as pandas sort_index does after value_counts. -/
def sortByFst : List (Nat × Nat) → List (Nat × Nat)
  | [] => []
  | p :: t => insertByFst p (sortByFst t)

theorem perm_insertByFst (p : Nat × Nat) (l : List (Nat × Nat)) :
    List.Perm (insertByFst p l) (p :: l) := by
  induction l with
  | nil => exact List.Perm.refl _
  | cons q t ih =>
    simp only [insertByFst]
    split
    · exact List.Perm.refl _
    · exact (List.Perm.cons q ih).trans (List.Perm.swap p q t)

theorem perm_sortByFst (l : List (Nat × Nat)) : List.Perm (sortByFst l) l := by
  induction l with
  | nil => exact List.Perm.refl _
  | cons p t ih =>
    exact (perm_insertByFst p (sortByFst t)).trans (List.Perm.cons p ih)

theorem sorted_insertByFst (p : Nat × Nat) (l : List (Nat × Nat))
    (hs : l.Pairwise (fun a b => a.1 ≤ b.1)) :
    (insertByFst p l).Pairwise (fun a b => a.1 ≤ b.1) := by
  induction l with
  | nil => simp [insertByFst]
  | cons q t ih =>
    obtain ⟨hq, ht⟩ := List.pairwise_cons.mp hs
    simp only [insertByFst]
    split
    · rename_i hpq
      refine List.pairwise_cons.mpr ⟨?_, hs⟩
      intro x hx
      rcases List.mem_cons.mp hx with rfl | hx
      · exact hpq
      · exact le_trans hpq (hq x hx)
    · rename_i hpq
      refine List.pairwise_cons.mpr ⟨?_, ih ht⟩
      intro x hx
      rcases List.mem_cons.mp ((perm_insertByFst p t).mem_iff.mp hx) with rfl | hx
      · omega
      · exact hq x hx

theorem sorted_sortByFst (l : List (Nat × Nat)) :
    (sortByFst l).Pairwise (fun a b => a.1 ≤ b.1) := by
  induction l with
  | nil => simp [sortByFst]
  | cons p t ih => exact sorted_insertByFst p (sortByFst t) ih

/-- Stable insertion into a list sorted descending by count: an element is
placed before the first entry whose count does not exceed it, so an entry
inserted later (encountered earlier in the data) precedes entries of equal
count inserted before it. -/
def insertByCount {α : Type} (p : α × Nat) : List (α × Nat) → List (α × Nat)
  | [] => [p]
  | q :: t => if q.2 ≤ p.2 then p :: q :: t else q :: insertByCount p t

/-- Modelled from the spec: pandas value_counts returns counts in descending
order but leaves the relative order of equal counts unspecified; the spec
fixes the tie-break to first-encounter order, which this stable descending
sort realizes over the first-encounter-ordered `valueCounts`. -/
def sortByCountDesc {α : Type} : List (α × Nat) → List (α × Nat)
  | [] => []
  | p :: t => insertByCount p (sortByCountDesc t)

theorem perm_insertByCount {α : Type} (p : α × Nat) (l : List (α × Nat)) :
    List.Perm (insertByCount p l) (p :: l) := by
  induction l with
  | nil => exact List.Perm.refl _
  | cons q t ih =>
    simp only [insertByCount]
    split
    · exact List.Perm.refl _
    · exact (List.Perm.cons q ih).trans (List.Perm.swap p q t)

theorem perm_sortByCountDesc {α : Type} (l : List (α × Nat)) :
    List.Perm (sortByCountDesc l) l := by
  induction l with
  | nil => exact List.Perm.refl _
  | cons p t ih =>
    exact (perm_insertByCount p (sortByCountDesc t)).trans (List.Perm.cons p ih)

theorem sorted_insertByCount {α : Type} (p : α × Nat) (l : List (α × Nat))
    (hs : l.Pairwise (fun a b => b.2 ≤ a.2)) :
    (insertByCount p l).Pairwise (fun a b => b.2 ≤ a.2) := by
  induction l with
  | nil => simp [insertByCount]
  | cons q t ih =>
    obtain ⟨hq, ht⟩ := List.pairwise_cons.mp hs
    simp only [insertByCount]
    split
    · rename_i hqp
      refine List.pairwise_cons.mpr ⟨?_, hs⟩
      intro x hx
      rcases List.mem_cons.mp hx with rfl | hx
      · exact hqp
      · exact le_trans (hq x hx) hqp
    · rename_i hqp
      refine List.pairwise_cons.mpr ⟨?_, ih ht⟩
      intro x hx
      rcases List.mem_cons.mp ((perm_insertByCount p t).mem_iff.mp hx) with rfl | hx
      · omega
      · exact hq x hx

theorem sorted_sortByCountDesc {α : Type} (l : List (α × Nat)) :
    (sortByCountDesc l).Pairwise (fun a b => b.2 ≤ a.2) := by
  induction l with
  | nil => simp [sortByCountDesc]
  | cons p t ih => exact sorted_insertByCount p (sortByCountDesc t) ih

theorem filter_insertByCount {α : Type} (p : α × Nat) (l : List (α × Nat)) (c : Nat) :
    (insertByCount p l).filter (fun x => x.2 == c) =
      if p.2 = c then p :: l.filter (fun x => x.2 == c)
      else l.filter (fun x => x.2 == c) := by
  induction l with
  | nil => by_cases hc : p.2 = c <;> simp [insertByCount, hc]
  | cons q t ih =>
    simp only [insertByCount]
    split
    · rename_i hqp
      by_cases hc : p.2 = c <;> simp [List.filter_cons, hc]
    · rename_i hqp
      by_cases hc : p.2 = c
      · have hqc : (q.2 == c) = false := by
          have : q.2 ≠ c := by omega
          simpa using this
        simp [List.filter_cons, hqc, ih, hc]
      · simp [List.filter_cons, ih, hc]

/-- Stability of the descending sort: within each count value the entries
keep their original relative order. -/
theorem filter_sortByCountDesc {α : Type} (l : List (α × Nat)) (c : Nat) :
    (sortByCountDesc l).filter (fun x => x.2 == c) = l.filter (fun x => x.2 == c) := by
  induction l with
  | nil => rfl
  | cons p t ih =>
    simp only [sortByCountDesc]
    rw [filter_insertByCount]
    by_cases hc : p.2 = c
    · rw [if_pos hc, ih, List.filter_cons, if_pos (by simpa using hc)]
    · rw [if_neg hc, ih, List.filter_cons, if_neg (by simpa using hc)]

/-- The hour-of-day aggregation (source line 172):
`df_filtered["Hour"].value_counts().sort_index()` — counts keyed by the
hours that occur, then sorted ascending by hour. -/
def hourlyCounts (view : List Record) : List (Nat × Nat) :=
  sortByFst (valueCounts (view.map (fun r => r.hour)))

/-- The by-category aggregation (source line 158):
`df_filtered["PRIMARY DESCRIPTION"].value_counts()` — counts in descending
order, ties in first-encounter order. -/
def categoryCounts (view : List Record) : List (String × Nat) :=
  sortByCountDesc (valueCounts (view.map (fun r => r.category)))

/-- The displayed top-10 truncation (`.head(10)` on line 158). -/
def topCategories (view : List Record) : List (String × Nat) :=
  (categoryCounts view).take 10

/-- C4 counterexample: a view with a single record at hour 14 produces a
single-entry mapping — hour 0 is not present with an explicit zero and the
mapping does not cover the 24 hours. -/
theorem hourly_missing_hours_counterexample :
    (0, 0) ∉ hourlyCounts [rec0] ∧ (hourlyCounts [rec0]).length ≠ 24 := by
  decide

/-- C4 amended: the hour-of-day aggregation is ordered strictly ascending by
hour and contains exactly the hours occurring in the view, each with its
positive count; hours with no matching record are absent (implicitly zero),
not present with an explicit zero. -/
theorem hourly_counts_amended (view : List Record) :
    (hourlyCounts view).Pairwise (fun a b => a.1 < b.1) ∧
      ∀ h n, (h, n) ∈ hourlyCounts view ↔
        (0 < n ∧ (view.filter (fun r => decide (r.hour = h))).length = n) := by
  constructor
  · have hle := sorted_sortByFst (valueCounts (view.map (fun r => r.hour)))
    have hkeys : ((hourlyCounts view).map Prod.fst).Nodup := by
      have hperm : List.Perm ((hourlyCounts view).map Prod.fst)
          ((valueCounts (view.map (fun r => r.hour))).map Prod.fst) :=
        (perm_sortByFst _).map Prod.fst
      rw [keys_valueCounts] at hperm
      exact (hperm.nodup_iff).mpr (nodup_firstKeys _)
    have hne : (hourlyCounts view).Pairwise (fun a b => a.1 ≠ b.1) :=
      (List.pairwise_map).mp hkeys
    exact (hle.and hne).imp (fun h => lt_of_le_of_ne h.1 h.2)
  · intro h n
    rw [hourlyCounts, (perm_sortByFst _).mem_iff, mem_valueCounts]
    rw [List.mem_map]
    constructor
    · rintro ⟨⟨r, hr, hrh⟩, rfl⟩
      refine ⟨?_, (count_map_eq_length_filter view (fun r => r.hour) h).symm⟩
      rw [count_map_eq_length_filter view (fun r => r.hour) h]
      have : r ∈ view.filter (fun r => decide (r.hour = h)) :=
        List.mem_filter.mpr ⟨hr, by simp [hrh]⟩
      exact List.length_pos.mpr (List.ne_nil_of_mem this)
    · rintro ⟨hn, rfl⟩
      refine ⟨?_, (count_map_eq_length_filter view (fun r => r.hour) h).symm⟩
      obtain ⟨r, hr⟩ := List.exists_mem_of_length_pos hn
      obtain ⟨hrv, hrh⟩ := List.mem_filter.mp hr
      exact ⟨r, hrv, by simpa using hrh⟩

/-- C7: the by-category aggregation is ordered descending by count; entries
of equal count keep the order in which their keys are first encountered in
the view (the order of `valueCounts`, whose keys are `firstKeys` of the
view's categories); the displayed result is the top-10 truncation of the
full ordering. -/
theorem category_counts_correct (view : List Record) :
    (categoryCounts view).Pairwise (fun a b => b.2 ≤ a.2) ∧
      (∀ c, (categoryCounts view).filter (fun x => x.2 == c) =
        (valueCounts (view.map (fun r => r.category))).filter (fun x => x.2 == c)) ∧
      (valueCounts (view.map (fun r => r.category))).map Prod.fst =
        firstKeys (view.map (fun r => r.category)) ∧
      topCategories view = (categoryCounts view).take 10 := by
  refine ⟨sorted_sortByCountDesc _, ?_, keys_valueCounts _, rfl⟩
  intro c
  exact filter_sortByCountDesc _ c

/-- Modelled from the spec: the repository has no Boundary Index or Spatial
Enricher code, so the polygon dataset is modelled as the spec describes it —
a boundary geometry abstracted to a containment test plus a neighborhood
label. -/
structure Polygon where
  label : String
  containsPt : Int → Int → Bool

/-- Modelled from the spec: the Boundary Index query
`containing_label(lon, lat)`, keeping the first containing polygon in the
index's iteration order (the spec's tie-break policy). -/
def containingLabel (polys : List Polygon) (lon lat : Int) : Option String :=
  (polys.find? (fun p => p.containsPt lon lat)).map (fun p => p.label)

/-- Modelled from the spec: an EnrichedRecord — the incident record plus an
optional neighborhood label. -/
structure Enriched where
  base : Record
  neighborhood : Option String

/-- Modelled from the spec: the Spatial Enricher — a left join attaching to
each record the label of its containing polygon; records with a missing
coordinate pass through with a null label, none is dropped or duplicated. -/
def enrich (polys : List Polygon) (ds : List Record) : List Enriched :=
  ds.map (fun r =>
    { base := r
      neighborhood :=
        match r.lon, r.lat with
        | some lo, some la => containingLabel polys lo la
        | _, _ => none })

/-- C5: spatial enrichment preserves cardinality — the output is the input
record list with a label attached, so nothing is lost or duplicated —
records with a missing coordinate come through with a null label, and with
an empty polygon source every enriched record has a null label. -/
theorem enrich_left_join (polys : List Polygon) (ds : List Record) :
    (enrich polys ds).length = ds.length ∧
      (enrich polys ds).map (fun e => e.base) = ds ∧
      (∀ e ∈ enrich polys ds,
        (e.base.lat = none ∨ e.base.lon = none) → e.neighborhood = none) ∧
      (∀ e ∈ enrich ([] : List Polygon) ds, e.neighborhood = none) := by
  refine ⟨List.length_map _ _, ?_, ?_, ?_⟩
  · rw [enrich, List.map_map]
    exact List.map_id _
  · intro e he hnone
    simp only [enrich, List.mem_map] at he
    obtain ⟨r, hr, rfl⟩ := he
    dsimp only at hnone ⊢
    rcases hnone with h | h <;> cases hlo : r.lon <;> cases hla : r.lat <;> simp_all
  · intro e he
    simp only [enrich, List.mem_map] at he
    obtain ⟨r, hr, rfl⟩ := he
    dsimp only
    cases r.lon <;> cases r.lat <;> simp [containingLabel]

/-- One step of a linear congruential generator, standing in for the pandas
random state advanced between draws. -/
def lcgNext (s : Nat) : Nat :=
  (s * 1103515245 + 12345) % 2147483648

/-- Draw up to `k` elements without replacement: pick a pseudo-random index,
remove that element, recurse with the advanced generator state.  This embeds
the contract of `df.sample(n, random_state)` at source line 188: a
deterministic function of the view's content, the requested size and the
seed, drawing without replacement. -/
def sampleAux {α : Type} : Nat → Nat → List α → List α
  | _, 0, _ => []
  | _, _ + 1, [] => []
  | s, k + 1, a :: t =>
    (a :: t).getD (s % (a :: t).length) a ::
      sampleAux (lcgNext s) k ((a :: t).eraseIdx (s % (a :: t).length))

/-- The map sampler: source line 187 requests `min(5000, len(df_filtered))`
records at `random_state=42`; `sample view maxSize seed` is that call with
the bound and the seed as parameters. -/
def sample {α : Type} (view : List α) (maxSize seed : Nat) : List α :=
  sampleAux seed maxSize view

theorem length_sampleAux {α : Type} :
    ∀ (k s : Nat) (l : List α), (sampleAux s k l).length = min k l.length := by
  intro k
  induction k with
  | zero => intro s l; simp [sampleAux]
  | succ k ih =>
    intro s l
    match l with
    | [] => simp [sampleAux]
    | a :: t =>
      have hi : s % (t.length + 1) < (a :: t).length :=
        Nat.mod_lt _ (by omega)
      simp only [sampleAux, List.length_cons]
      rw [ih, List.length_eraseIdx_of_lt hi]
      simp only [List.length_cons]
      omega

theorem perm_getD_cons_eraseIdx {α : Type} :
    ∀ (l : List α) (i : Nat), i < l.length →
      ∀ d, List.Perm (l.getD i d :: l.eraseIdx i) l := by
  intro l
  induction l with
  | nil => intro i h; simp at h
  | cons a t ih =>
    intro i h d
    match i with
    | 0 => simp
    | j + 1 =>
      have hj : j < t.length := by simpa using h
      simp only [List.getD_cons_succ, List.eraseIdx_cons_succ]
      exact (List.Perm.swap a (t.getD j d) (t.eraseIdx j)).trans
        (List.Perm.cons a (ih j hj d))

theorem subperm_sampleAux {α : Type} :
    ∀ (k s : Nat) (l : List α), (sampleAux s k l).Subperm l := by
  intro k
  induction k with
  | zero => intro s l; simp [sampleAux]
  | succ k ih =>
    intro s l
    match l with
    | [] => simp [sampleAux]
    | a :: t =>
      have hi : s % (a :: t).length < (a :: t).length :=
        Nat.mod_lt _ (by simp)
      simp only [sampleAux]
      refine ((List.subperm_cons _).mpr (ih _ _)).trans ?_
      exact (perm_getD_cons_eraseIdx (a :: t) _ hi a).subperm

/-- C6: the sampler returns exactly min(max_size, |view|) records, drawn
from the view without replacement (the sample is a sub-permutation of the
view), and it is a pure function of (view, max_size, seed): re-invoking
with identical inputs yields the identical subset. -/
theorem sampler_correct (view : List Record) (m seed : Nat) :
    (sample view m seed).length = min m view.length ∧
      (sample view m seed).Subperm view ∧
      sample view m seed = sample view m seed :=
  ⟨length_sampleAux m seed view, subperm_sampleAux m seed view, rfl⟩

end Crime
